import Mathlib

/-!
# Attribute codec: `DefaultAttrsFormat`

A shallow embedding of `core/src/codecs/default/DefaultAttrsFormat.cpp`.

* Bytes are natural numbers (below 256 in files produced by the codec itself).
* `size_t` is a natural number taken modulo `2 ^ 64`; `int64_t` is an integer
  in `[-2 ^ 63, 2 ^ 63)`.  Words are laid out little-endian, the byte order of
  the hosts the engine runs on.
* A C++ call that may throw becomes a function returning a `Result`: the
  exception code (if any), the state of the filesystem handler at that point
  and the state of the output arguments at that point.
* The mutex taken by the three public operations is not modelled: every
  function here is one uninterrupted call.
* The `fiu_do_on` fault-injection hooks are no-ops in a production build; a
  refused open is expressed through `FSHandler.can_read` / `can_write`.
-/

namespace milvus.codec

/-! ## Machine words and their byte encodings -/

/-- The constant `INT64_MAX`. -/
def INT64_MAX : Nat := 2 ^ 63 - 1

/-- The `k` low-order bytes of `n`, least significant first. -/
def encodeLE : Nat → Nat → List Nat
  | 0, _ => []
  | k + 1, n => n % 256 :: encodeLE k (n / 256)

/-- The number whose little-endian digits (base 256) are the given bytes. -/
def decodeLE : List Nat → Nat
  | [] => 0
  | b :: bs => b + 256 * decodeLE bs

/-- The eight bytes of a `size_t` object holding `n` (taken modulo `2 ^ 64`). -/
def encode64 (n : Nat) : List Nat := encodeLE 8 n

/-- The `size_t` bit pattern of an `int64_t` value (two's complement). -/
def ofInt64 (x : Int) : Nat := (x % 2 ^ 64).toNat

/-- The `int64_t` value of a 64-bit pattern (two's complement). -/
def toInt64 (u : Nat) : Int :=
  if u % 2 ^ 64 < 2 ^ 63 then ((u % 2 ^ 64 : Nat) : Int) else ((u % 2 ^ 64 : Nat) : Int) - 2 ^ 64

/-- The bytes of the array behind a `std::vector<int64_t>`. -/
def encodeUids : List Int → List Nat
  | [] => []
  | x :: xs => encode64 (ofInt64 x) ++ encodeUids xs

/-- The `int64_t` elements stored in a byte array, eight bytes per element;
trailing bytes that do not fill an element are ignored. -/
def decodeUids : List Nat → List Int
  | b0 :: b1 :: b2 :: b3 :: b4 :: b5 :: b6 :: b7 :: rest =>
      toInt64 (decodeLE [b0, b1, b2, b3, b4, b5, b6, b7]) :: decodeUids rest
  | _ => []

/-- The effect of `std::vector::resize(n)`: keep the first `n` elements and pad
with value-initialised (zero) elements up to size `n`. -/
def resize {α : Type} (zero : α) (v : List α) (n : Nat) : List α :=
  v.take n ++ List.replicate (n - v.length) zero

/-! ## Paths (the `boost` helpers used by the codec)

Strings are treated as sequences of one-byte characters. -/

/-- The test `boost::algorithm::ends_with(s, t)`: `t` is a suffix of `s`. -/
def ends_with (s t : String) : Bool := t.data.reverse.isPrefixOf s.data.reverse

/-- The characters after the last occurrence of `c` (all of them when `c` does
not occur); `acc` is the answer for the part already scanned. -/
def afterLast (c : Char) : List Char → List Char → List Char
  | [], acc => acc
  | x :: xs, acc => if x = c then afterLast c xs xs else afterLast c xs acc

/-- The characters from the last occurrence of `c` on, that occurrence
included; `none` when `c` does not occur. -/
def fromLast (c : Char) : List Char → Option (List Char)
  | [] => none
  | x :: xs =>
    match fromLast c xs with
    | some r => some r
    | none => if x = c then some (x :: xs) else none

/-- The last element `boost::filesystem::path::filename()` of a path: what
follows the last slash, and `.` for a path that ends in a slash. -/
def filename (p : String) : String :=
  let s := afterLast '/' p.data p.data
  if s.isEmpty && !p.data.isEmpty then "." else ⟨s⟩

/-- The result of `boost::filesystem::path::extension()`: empty for the file
names `.` and `..`, otherwise the part of the file name from its last dot on
(the dot included), empty when the file name has no dot. -/
def extension (p : String) : String :=
  let name := filename p
  if name = "." || name = ".." then ""
  else match fromLast '.' name.data with
    | some e => ⟨e⟩
    | none => ""

/-- The result of `std::string::substr(0, n)`. -/
def substr0 (s : String) (n : Nat) : String := ⟨s.data.take n⟩

/-! ## The filesystem handler -/

/-- Modelled from the spec: the reader capability of the filesystem handler
(`open(path)`, `read(buffer, size)`, `seek(offset)`, `close()`), with an
explicit open flag, the bytes of the file it was opened on and its cursor. -/
structure Reader where
  /-- The open flag: true between a successful `open` and the next `close`. -/
  is_open : Bool
  /-- The bytes of the file the reader was opened on. -/
  content : List Nat
  /-- The read cursor. -/
  pos : Nat
deriving DecidableEq, Repr

/-- Modelled from the spec: the writer capability of the filesystem handler
(`open(path)`, `write(buffer, size)`, `close()`), with an explicit open flag and
the path it was last opened on. -/
structure Writer where
  /-- The open flag: true between a successful `open` and the next `close`. -/
  is_open : Bool
  /-- The path of the file the writer was last asked to open. -/
  name : String
deriving DecidableEq, Repr

/-- Modelled from the spec: the filesystem handler `storage::FSHandler` with
its three capabilities `operation_ptr_`, `reader_ptr_` and `writer_ptr_`, and
the part of the disk they act on. -/
structure FSHandler where
  /-- The segment directory, `operation_ptr_->GetDirectory()`. -/
  dir_path : String
  /-- The oracle `boost::filesystem::is_directory`. -/
  is_directory : String → Bool
  /-- The regular files on disk with their bytes, in directory-iteration order. -/
  files : List (String × List Nat)
  /-- Whether the reader is allowed to open a path that exists. -/
  can_read : String → Bool
  /-- Whether the writer is able to create or truncate a path. -/
  can_write : String → Bool
  /-- The reader capability. -/
  reader_ptr_ : Reader
  /-- The writer capability. -/
  writer_ptr_ : Writer

/-- The bytes of the file at path `p`, if there is one. -/
def fileGet : List (String × List Nat) → String → Option (List Nat)
  | [], _ => none
  | (q, c) :: rest, p => if q = p then some c else fileGet rest p

/-- Store `c` as the bytes of the file at path `p`, creating the file (after
all existing ones) when it does not exist. -/
def fileSet : List (String × List Nat) → String → List Nat → List (String × List Nat)
  | [], p, c => [(p, c)]
  | (q, d) :: rest, p, c => if q = p then (p, c) :: rest else (q, d) :: fileSet rest p c

/-- Whether path `p` names an entry directly inside directory `dir`. -/
def inDirectory (dir p : String) : Bool :=
  let pre := dir.data ++ ['/']
  pre.isPrefixOf p.data && !(p.data.drop pre.length).isEmpty &&
    !(p.data.drop pre.length).contains '/'

/-- Modelled from the spec: `operation_ptr_->ListDirectory(file_paths)`, the
paths of the files directly inside the segment directory. -/
def FSHandler.ListDirectory (fs : FSHandler) : List String :=
  (fs.files.map Prod.fst).filter (fun p => inDirectory fs.dir_path p)

/-- A reader that is not open. -/
def Reader.closed : Reader := ⟨false, [], 0⟩

/-- Modelled from the spec: `reader_ptr_->open(path)`.  It succeeds when the
file exists and may be read; the reader then stands at the start of that file,
whatever it was opened on before.  A refused open leaves the reader closed. -/
def FSHandler.reader_open (fs : FSHandler) (path : String) : Bool × FSHandler :=
  match fileGet fs.files path with
  | some c =>
    if fs.can_read path then (true, { fs with reader_ptr_ := ⟨true, c, 0⟩ })
    else (false, { fs with reader_ptr_ := Reader.closed })
  | none => (false, { fs with reader_ptr_ := Reader.closed })

/-- Modelled from the spec: `reader_ptr_->read(buffer, size)` where `buf` is the
byte content of the destination object.  The bytes available from the cursor
(at most `size`) replace the start of the destination and the cursor moves past
them; a short read leaves the rest of the destination as it was.  Reading more
than the destination can hold is undefined in C++; the excess is dropped. -/
def Reader.read (r : Reader) (buf : List Nat) (size : Nat) : List Nat × Reader :=
  let got := if r.is_open then (r.content.drop r.pos).take size else []
  ((got ++ buf.drop got.length).take buf.length, { r with pos := r.pos + got.length })

/-- Modelled from the spec: `reader_ptr_->seekg(offset)`. -/
def Reader.seekg (r : Reader) (offset : Nat) : Reader := { r with pos := offset }

/-- Modelled from the spec: `reader_ptr_->close()`. -/
def Reader.close (r : Reader) : Reader := { r with is_open := false }

/-- Modelled from the spec: `writer_ptr_->open(path)`, which creates the file
or truncates it to length zero.  A refused open changes no file. -/
def FSHandler.writer_open (fs : FSHandler) (path : String) : Bool × FSHandler :=
  if fs.can_write path then
    (true, { fs with files := fileSet fs.files path [], writer_ptr_ := ⟨true, path⟩ })
  else (false, { fs with writer_ptr_ := ⟨false, path⟩ })

/-- Modelled from the spec: `writer_ptr_->write(buffer, size)`, appending the
given bytes to the file the writer is open on. -/
def FSHandler.writer_write (fs : FSHandler) (bytes : List Nat) : FSHandler :=
  if fs.writer_ptr_.is_open then
    let old := (fileGet fs.files fs.writer_ptr_.name).getD []
    { fs with files := fileSet fs.files fs.writer_ptr_.name (old ++ bytes) }
  else fs

/-- Modelled from the spec: `writer_ptr_->close()`. -/
def FSHandler.writer_close (fs : FSHandler) : FSHandler :=
  { fs with writer_ptr_ := { fs.writer_ptr_ with is_open := false } }

/-! ## Attributes -/

/-- Modelled from the spec: `segment::Attr`, built as
`Attr(data, nbytes, uids, name)` and read through `GetData()`, `GetNbytes()`,
`GetUids()` and `GetName()`. -/
structure Attr where
  /-- The raw payload bytes, `GetData()`. -/
  data : List Nat
  /-- The declared byte length, `GetNbytes()`. -/
  nbytes : Nat
  /-- The row identifiers, `GetUids()`. -/
  uids : List Int
  /-- The field name, `GetName()`. -/
  name : String
deriving DecidableEq, Repr

/-- Modelled from the spec: the container `segment::Attrs::attrs`, a map from
field name to attribute, as the list of its entries in iteration order. -/
abbrev Attrs := List (String × Attr)

/-- The effect of `attrs.insert(std::pair(k, v))`: a key that is already
present keeps its entry. -/
def Attrs.insert (m : Attrs) (k : String) (v : Attr) : Attrs :=
  if (m.map Prod.fst).contains k then m else m ++ [(k, v)]

/-! ## Results of calls that may throw -/

/-- The error codes passed to `Exception`. -/
inductive ErrorCode where
  /-- The code thrown when the segment directory does not exist. -/
  | SERVER_INVALID_ARGUMENT
  /-- The code thrown when a file cannot be opened. -/
  | SERVER_CANNOT_CREATE_FILE
deriving DecidableEq, Repr

/-- The outcome of a call: `status = none` for a normal return and `some e`
for `throw Exception(e, _)`, with the filesystem handler and the output
arguments as they are at that moment. -/
structure Result (α : Type) where
  /-- The exception code, if the call threw. -/
  status : Option ErrorCode
  /-- The filesystem handler after the call. -/
  fs : FSHandler
  /-- The output arguments after the call. -/
  out : α

/-! ## The codec -/

/-- Modelled from the spec: the extension constants declared in
`DefaultAttrsFormat.h`, fixed strings configured on the codec instance. -/
structure DefaultAttrsFormat where
  /-- The extension of attribute files. -/
  raw_attr_extension_ : String
  /-- The suffix of the row-id file. -/
  user_id_extension_ : String
deriving DecidableEq, Repr

/-- The function `DefaultAttrsFormat::read_attrs_internal`.  `offset` is the
(non-negative) `off_t` argument, `num` the requested byte count, `raw_attrs`
and `nbytes` the initial values of the two output arguments. -/
def DefaultAttrsFormat.read_attrs_internal (fs_ptr : FSHandler) (file_path : String)
    (offset num : Nat) (raw_attrs : List Nat) (nbytes : Nat) : Result (List Nat × Nat) :=
  let (open_res, fs1) := fs_ptr.reader_open file_path
  if !open_res then
    ⟨some .SERVER_CANNOT_CREATE_FILE, fs1, (raw_attrs, nbytes)⟩
  else
    -- fs_ptr->reader_ptr_->read(&nbytes, sizeof(size_t));
    let (hdr, r1) := fs1.reader_ptr_.read (encode64 nbytes) 8
    let nbytes := decodeLE hdr
    -- num = std::min(num, nbytes - offset);   (unsigned, modulo 2 ^ 64)
    let num := min num ((nbytes + 2 ^ 64 - offset % 2 ^ 64) % 2 ^ 64)
    -- offset += sizeof(size_t); fs_ptr->reader_ptr_->seekg(offset);
    let offset := offset + 8
    let r2 := r1.seekg offset
    -- raw_attrs.resize(num / sizeof(uint8_t));
    let raw_attrs := resize 0 raw_attrs (num / 1)
    -- fs_ptr->reader_ptr_->read(raw_attrs.data(), num);
    let (raw_attrs, r3) := r2.read raw_attrs num
    -- fs_ptr->reader_ptr_->close();
    ⟨none, { fs1 with reader_ptr_ := r3.close }, (raw_attrs, nbytes)⟩

/-- The function `DefaultAttrsFormat::read_uids_internal`; `uids` is the
initial value of the output vector.  The local `num_bytes` is uninitialised
before the header is read into it and is taken to be zero then. -/
def DefaultAttrsFormat.read_uids_internal (fs_ptr : FSHandler) (file_path : String)
    (uids : List Int) : Result (List Int) :=
  let (open_res, fs1) := fs_ptr.reader_open file_path
  if !open_res then
    ⟨some .SERVER_CANNOT_CREATE_FILE, fs1, uids⟩
  else
    -- size_t num_bytes; fs_ptr->reader_ptr_->read(&num_bytes, sizeof(size_t));
    let (hdr, r1) := fs1.reader_ptr_.read (encode64 0) 8
    let num_bytes := decodeLE hdr
    -- uids.resize(num_bytes / sizeof(int64_t));
    let uids := resize 0 uids (num_bytes / 8)
    -- fs_ptr->reader_ptr_->read(uids.data(), num_bytes);
    let (b1, r2) := r1.read (encodeUids uids) num_bytes
    -- fs_ptr->reader_ptr_->read(uids.data(), num_bytes);
    let (b2, r3) := r2.read b1 num_bytes
    ⟨none, { fs1 with reader_ptr_ := r3 }, decodeUids b2⟩

/-- The field name computed in `DefaultAttrsFormat::read` for an attribute
file: `file_name = path.filename().string()` followed by
`field_name = file_name.substr(0, file_name.size() - 3)`, the subtraction
being unsigned (modulo `2 ^ 64`). -/
def DefaultAttrsFormat.field_name_of (file_path : String) : String :=
  let file_name := filename file_path
  substr0 file_name ((file_name.length + 2 ^ 64 - 3) % 2 ^ 64)

/-- The loop `for (const auto& file_path : file_paths)` of
`DefaultAttrsFormat::read`, over the paths still to be visited. -/
def DefaultAttrsFormat.read_loop (self : DefaultAttrsFormat) (uids : List Int) :
    List String → FSHandler → Attrs → Result Attrs
  | [], fs_ptr, attrs => ⟨none, fs_ptr, attrs⟩
  | file_path :: rest, fs_ptr, attrs =>
    if extension file_path = self.raw_attr_extension_ then
      let field_name := field_name_of file_path
      let r := read_attrs_internal fs_ptr file_path 0 INT64_MAX [] 0
      match r.status with
      | some e => ⟨some e, r.fs, attrs⟩
      | none =>
        let attr : Attr := ⟨r.out.1, r.out.2, uids, field_name⟩
        read_loop self uids rest r.fs (attrs.insert field_name attr)
    else read_loop self uids rest fs_ptr attrs

/-- The function `DefaultAttrsFormat::read`; `attrs_read` is the initial
content of the result set. -/
def DefaultAttrsFormat.read (self : DefaultAttrsFormat) (fs_ptr : FSHandler)
    (attrs_read : Attrs) : Result Attrs :=
  let dir_path := fs_ptr.dir_path
  if !fs_ptr.is_directory dir_path then
    ⟨some .SERVER_INVALID_ARGUMENT, fs_ptr, attrs_read⟩
  else
    let file_paths := fs_ptr.ListDirectory
    let r : Result (List Int) :=
      match file_paths.find? (fun path => ends_with path self.user_id_extension_) with
      | some it => read_uids_internal fs_ptr it []
      | none => ⟨none, fs_ptr, []⟩
    match r.status with
    | some e => ⟨some e, r.fs, attrs_read⟩
    | none => self.read_loop r.out file_paths r.fs attrs_read

/-- The path `ra_file_path` built in `DefaultAttrsFormat::write`:
`dir_path + "/" + it->second->GetName() + raw_attr_extension_`. -/
def DefaultAttrsFormat.ra_file_path (self : DefaultAttrsFormat) (dir_path : String)
    (attr : Attr) : String :=
  dir_path ++ "/" ++ attr.name ++ self.raw_attr_extension_

/-- The loop `for (; it != attrs_ptr->attrs.end(); it++)` of
`DefaultAttrsFormat::write`, over the entries still to be visited. -/
def DefaultAttrsFormat.write_loop (self : DefaultAttrsFormat) (dir_path : String) :
    List (String × Attr) → FSHandler → Result Unit
  | [], fs_ptr => ⟨none, fs_ptr, ()⟩
  | (_, attr) :: rest, fs_ptr =>
    let ra_file_path := self.ra_file_path dir_path attr
    let (open_res, fs1) := fs_ptr.writer_open ra_file_path
    if !open_res then
      ⟨some .SERVER_CANNOT_CREATE_FILE, fs1, ()⟩
    else
      let ra_num_bytes := attr.nbytes
      -- fs_ptr->writer_ptr_->write(&ra_num_bytes, sizeof(size_t));
      let fs2 := fs1.writer_write (encode64 ra_num_bytes)
      -- fs_ptr->writer_ptr_->write((void*)it->second->GetData().data(), ra_num_bytes);
      let fs3 := fs2.writer_write (attr.data.take ra_num_bytes)
      let fs4 := fs3.writer_close
      write_loop self dir_path rest fs4

/-- The function `DefaultAttrsFormat::write`.  The block between `#if 0` and
`#endif` is not compiled and has no counterpart here. -/
def DefaultAttrsFormat.write (self : DefaultAttrsFormat) (fs_ptr : FSHandler)
    (attrs_ptr : Attrs) : Result Unit :=
  let dir_path := fs_ptr.dir_path
  match attrs_ptr with
  | [] => ⟨none, fs_ptr, ()⟩
  | _ :: _ => self.write_loop dir_path attrs_ptr fs_ptr

/-- The loop `for (const auto& path : file_paths)` of
`DefaultAttrsFormat::read_uids`, over the paths still to be visited. -/
def DefaultAttrsFormat.read_uids_loop (self : DefaultAttrsFormat) :
    List String → FSHandler → List Int → Result (List Int)
  | [], fs_ptr, uids => ⟨none, fs_ptr, uids⟩
  | path :: rest, fs_ptr, uids =>
    if ends_with path self.user_id_extension_ then
      let r := read_uids_internal fs_ptr path uids
      match r.status with
      | some e => ⟨some e, r.fs, r.out⟩
      | none => read_uids_loop self rest r.fs r.out
    else read_uids_loop self rest fs_ptr uids

/-- The function `DefaultAttrsFormat::read_uids`; `uids` is the initial
content of the output list. -/
def DefaultAttrsFormat.read_uids (self : DefaultAttrsFormat) (fs_ptr : FSHandler)
    (uids : List Int) : Result (List Int) :=
  let dir_path := fs_ptr.dir_path
  if !fs_ptr.is_directory dir_path then
    ⟨some .SERVER_INVALID_ARGUMENT, fs_ptr, uids⟩
  else
    let file_paths := fs_ptr.ListDirectory
    self.read_uids_loop file_paths fs_ptr uids

/-! ## Concrete segments used to exercise the codec -/

/-- A codec configured with the extensions of the scenarios: attribute files
end in `.attr`, the row-id file in `.uid`. -/
def exampleCodec : DefaultAttrsFormat := ⟨".attr", ".uid"⟩

/-- A handler on directory `seg` holding the given files, with every open
allowed and both capabilities closed. -/
def segmentWith (files : List (String × List Nat)) : FSHandler :=
  ⟨"seg", fun p => p == "seg", files, fun _ => true, fun _ => true, Reader.closed, ⟨false, ""⟩⟩

/-- The scenario directory: `age.attr` with header 4 and payload `[1, 2, 3, 4]`,
and `rows.uid` with header 8 and the identifier 42. -/
def exampleSegment : FSHandler :=
  segmentWith [("seg/age.attr", encode64 4 ++ [1, 2, 3, 4]),
    ("seg/rows.uid", encode64 8 ++ encodeUids [42])]

/-- A directory with two row-id files, holding the identifiers 1 and 2. -/
def twoUidSegment : FSHandler :=
  segmentWith [("seg/a.uid", encode64 8 ++ encodeUids [1]),
    ("seg/b.uid", encode64 8 ++ encodeUids [2])]

/-- A handler whose directory path is not a directory. -/
def missingSegment : FSHandler :=
  ⟨"gone", fun _ => false, [], fun _ => true, fun _ => true, Reader.closed, ⟨false, ""⟩⟩

/-- The attribute `age` with payload `[1, 2, 3, 4]` and no row identifiers. -/
def ageAttr : Attr := ⟨[1, 2, 3, 4], 4, [], "age"⟩

/-! ## Lemmas on the byte encodings -/

theorem encodeLE_length (k n : Nat) : (encodeLE k n).length = k := by
  induction k generalizing n with
  | zero => rfl
  | succ k ih => simp [encodeLE, ih]

theorem decodeLE_encodeLE (k n : Nat) : decodeLE (encodeLE k n) = n % 256 ^ k := by
  induction k generalizing n with
  | zero => simp [encodeLE, decodeLE, Nat.mod_one]
  | succ k ih =>
    simp only [encodeLE, decodeLE, ih]
    rw [pow_succ, mul_comm (256 ^ k) 256, Nat.mod_mul]

theorem encode64_length (n : Nat) : (encode64 n).length = 8 := encodeLE_length 8 n

theorem decodeLE_encode64 (n : Nat) (h : n < 2 ^ 64) : decodeLE (encode64 n) = n := by
  unfold encode64
  rw [decodeLE_encodeLE]
  exact Nat.mod_eq_of_lt (by norm_num at h ⊢; exact h)

theorem toInt64_ofInt64 (x : Int) (h1 : -2 ^ 63 ≤ x) (h2 : x < 2 ^ 63) :
    toInt64 (ofInt64 x) = x := by
  unfold toInt64 ofInt64
  norm_num at h1 h2 ⊢
  split <;> omega

/-- Reading a whole object from a position where enough bytes are available. -/
theorem Reader.read_full (r : Reader) (buf : List Nat) (size : Nat) (ho : r.is_open = true)
    (hbuf : buf.length = size) (havail : r.pos + size ≤ r.content.length) :
    r.read buf size = ((r.content.drop r.pos).take size, { r with pos := r.pos + size }) := by
  have hlen : ((r.content.drop r.pos).take size).length = size := by
    simp [List.length_take, List.length_drop]; omega
  have hdrop : buf.drop size = [] := List.drop_of_length_le (by omega)
  simp only [Reader.read, ho, if_true, hlen, hdrop, List.append_nil, hbuf]
  rw [List.take_of_length_le (by omega)]

/-- Reading at or past the end of the file changes nothing but is harmless. -/
theorem Reader.read_eof (r : Reader) (buf : List Nat) (size : Nat)
    (hpos : r.content.length ≤ r.pos) : r.read buf size = (buf, r) := by
  have : r.content.drop r.pos = [] := List.drop_of_length_le hpos
  simp [Reader.read, this]

/-- The general shape of `read_attrs_internal` on a file that can be opened:
the header word, the unsigned clamp and the bytes found at the seek position. -/
theorem read_attrs_internal_open (fs : FSHandler) (path : String) (content : List Nat)
    (offset num : Nat) (buf : List Nat) (nb : Nat)
    (hget : fileGet fs.files path = some content) (hread : fs.can_read path = true)
    (hlen : 8 ≤ content.length) :
    DefaultAttrsFormat.read_attrs_internal fs path offset num buf nb =
      (let T := decodeLE (content.take 8)
       let n := min num ((T + 2 ^ 64 - offset % 2 ^ 64) % 2 ^ 64)
       let got := (content.drop (offset + 8)).take n
       ⟨none, { fs with reader_ptr_ := ⟨false, content, offset + 8 + got.length⟩ },
        ((got ++ (resize 0 buf n).drop got.length).take n, T)⟩) := by
  have hres : ∀ m : Nat, (resize 0 buf m).length = m := by
    intro m; simp [resize, List.length_take]; omega
  have h1 := Reader.read_full ⟨true, content, 0⟩ (encode64 nb) 8 rfl (encode64_length nb)
    (by simpa using hlen)
  simp only [DefaultAttrsFormat.read_attrs_internal, FSHandler.reader_open, hget, hread, if_true]
  simp only [Bool.not_true, Bool.false_eq_true, if_false, h1, List.drop_zero, Nat.div_one]
  simp [Reader.read, Reader.seekg, Reader.close, hres]

/-- The call `read_attrs_internal` on a file laid out as header `T` plus `T`
payload bytes, for an offset inside the payload: the whole result. -/
theorem read_attrs_internal_wf (fs : FSHandler) (path : String) (payload : List Nat)
    (offset num : Nat) (buf : List Nat) (nb : Nat)
    (hget : fileGet fs.files path = some (encode64 payload.length ++ payload))
    (hread : fs.can_read path = true)
    (hT : payload.length < 2 ^ 64) (hoff : offset ≤ payload.length) :
    DefaultAttrsFormat.read_attrs_internal fs path offset num buf nb =
      ⟨none, { fs with reader_ptr_ := ⟨false, encode64 payload.length ++ payload,
                 offset + 8 + min num (payload.length - offset)⟩ },
        ((payload.drop offset).take (min num (payload.length - offset)), payload.length)⟩ := by
  have h8 := encode64_length payload.length
  rw [read_attrs_internal_open fs path _ offset num buf nb hget hread
    (by simp [h8])]
  have htake : (encode64 payload.length ++ payload).take 8 = encode64 payload.length := by
    rw [List.take_append_of_le_length (by omega), List.take_of_length_le (by omega)]
  have hdrop : (encode64 payload.length ++ payload).drop (offset + 8) = payload.drop offset := by
    have := @List.drop_append _ (encode64 payload.length) payload offset
    rwa [h8, Nat.add_comm] at this
  have hclamp : (payload.length + 2 ^ 64 - offset % 2 ^ 64) % 2 ^ 64 = payload.length - offset := by
    omega
  have hgot : ((payload.drop offset).take (min num (payload.length - offset))).length
      = min num (payload.length - offset) := by
    simp [List.length_take, List.length_drop]
  simp only [htake, hdrop, decodeLE_encode64 _ hT, hclamp, hgot]
  congr 2
  rw [List.take_append_of_le_length (by omega), List.take_of_length_le (by omega)]

theorem encodeUids_length (ids : List Int) : (encodeUids ids).length = 8 * ids.length := by
  induction ids with
  | nil => rfl
  | cons x xs ih => simp [encodeUids, encode64_length, ih]; omega

theorem decodeUids_encode64_append (n : Nat) (rest : List Nat) :
    decodeUids (encode64 n ++ rest) = toInt64 (decodeLE (encode64 n)) :: decodeUids rest := by
  simp [encode64, encodeLE, decodeUids]

theorem decodeUids_encodeUids (ids : List Int) (hrange : ∀ x ∈ ids, -2 ^ 63 ≤ x ∧ x < 2 ^ 63) :
    decodeUids (encodeUids ids) = ids := by
  induction ids with
  | nil => rfl
  | cons x xs ih =>
    have hx := hrange x (List.mem_cons_self x xs)
    have hlt : ofInt64 x < 2 ^ 64 := by
      unfold ofInt64
      omega
    rw [encodeUids, decodeUids_encode64_append, decodeLE_encode64 _ hlt,
      toInt64_ofInt64 x hx.1 hx.2, ih (fun y hy => hrange y (List.mem_cons_of_mem x hy))]

theorem resize_length {α : Type} (z : α) (v : List α) (n : Nat) : (resize z v n).length = n := by
  simp [resize, List.length_take]; omega

/-- The call `read_uids_internal` on a row-id file laid out as header `8 * k`
plus `k` identifiers: the output list becomes exactly those identifiers
(whatever it held before) and the reader stays open. -/
theorem read_uids_internal_wf (fs : FSHandler) (path : String) (ids uids : List Int)
    (hget : fileGet fs.files path = some (encode64 (8 * ids.length) ++ encodeUids ids))
    (hread : fs.can_read path = true)
    (hrange : ∀ x ∈ ids, -2 ^ 63 ≤ x ∧ x < 2 ^ 63)
    (hsize : 8 * ids.length < 2 ^ 64) :
    DefaultAttrsFormat.read_uids_internal fs path uids =
      ⟨none, { fs with reader_ptr_ := ⟨true, encode64 (8 * ids.length) ++ encodeUids ids,
                 8 + 8 * ids.length⟩ }, ids⟩ := by
  have h8 := encode64_length (8 * ids.length)
  have hl := encodeUids_length ids
  have h1 := Reader.read_full ⟨true, encode64 (8 * ids.length) ++ encodeUids ids, 0⟩
    (encode64 0) 8 rfl (encode64_length 0) (by simp [h8])
  have htake : (encode64 (8 * ids.length) ++ encodeUids ids).take 8
      = encode64 (8 * ids.length) := by
    rw [List.take_append_of_le_length (by omega), List.take_of_length_le (by omega)]
  simp only [List.drop_zero, htake] at h1
  have hbuf : (encodeUids (resize 0 uids (8 * ids.length / 8))).length = 8 * ids.length := by
    rw [encodeUids_length, resize_length]; omega
  have h2 := Reader.read_full ⟨true, encode64 (8 * ids.length) ++ encodeUids ids, 0 + 8⟩
    (encodeUids (resize 0 uids (8 * ids.length / 8))) (8 * ids.length) rfl hbuf
    (by simp [h8, hl])
  have hdrop : ((encode64 (8 * ids.length) ++ encodeUids ids).drop (0 + 8)).take (8 * ids.length)
      = encodeUids ids := by
    have := @List.drop_append _ (encode64 (8 * ids.length)) (encodeUids ids) 0
    rw [h8] at this
    rw [show (0 + 8) = 8 + 0 from rfl, this, List.drop_zero, List.take_of_length_le (by omega)]
  simp only [hdrop] at h2
  have h3 := Reader.read_eof ⟨true, encode64 (8 * ids.length) ++ encodeUids ids,
    0 + 8 + 8 * ids.length⟩ (encodeUids ids) (8 * ids.length) (by simp [h8, hl])
  simp only [DefaultAttrsFormat.read_uids_internal, FSHandler.reader_open, hget, hread, if_true,
    Bool.not_true, Bool.false_eq_true, if_false, h1, decodeLE_encode64 _ hsize, h2, h3,
    decodeUids_encodeUids ids hrange]

/-- The loop of `read_uids` over well-formed row-id files: every matching file
replaces the output list, so the last matching file decides the result. -/
theorem read_uids_loop_wf (self : DefaultAttrsFormat) (files : List (String × List Nat))
    (can_read : String → Bool) (idsOf : String → List Int) (l : List String)
    (h : ∀ p ∈ l, ends_with p self.user_id_extension_ = true →
      fileGet files p = some (encode64 (8 * (idsOf p).length) ++ encodeUids (idsOf p)) ∧
      can_read p = true ∧ (∀ x ∈ idsOf p, -2 ^ 63 ≤ x ∧ x < 2 ^ 63) ∧
      8 * (idsOf p).length < 2 ^ 64)
    (fs : FSHandler) (uids : List Int) (hf : fs.files = files) (hc : fs.can_read = can_read) :
    (self.read_uids_loop l fs uids).status = none ∧
    (self.read_uids_loop l fs uids).out =
      (((l.filter (fun p => ends_with p self.user_id_extension_)).getLast?).map idsOf).getD uids ∧
    (self.read_uids_loop l fs uids).fs.files = files := by
  induction l generalizing fs uids with
  | nil => simp [DefaultAttrsFormat.read_uids_loop, hf]
  | cons p rest ih =>
    have hrest : ∀ q ∈ rest, ends_with q self.user_id_extension_ = true →
        fileGet files q = some (encode64 (8 * (idsOf q).length) ++ encodeUids (idsOf q)) ∧
        can_read q = true ∧ (∀ x ∈ idsOf q, -2 ^ 63 ≤ x ∧ x < 2 ^ 63) ∧
        8 * (idsOf q).length < 2 ^ 64 := fun q hq => h q (List.mem_cons_of_mem p hq)
    by_cases hm : ends_with p self.user_id_extension_ = true
    · obtain ⟨hg, hr, hrange, hsize⟩ := h p (List.mem_cons_self p rest) hm
      have hw := read_uids_internal_wf fs p (idsOf p) uids (by rw [hf]; exact hg)
        (by rw [hc]; exact hr) hrange hsize
      have := ih hrest { fs with reader_ptr_ := ⟨true,
        encode64 (8 * (idsOf p).length) ++ encodeUids (idsOf p), 8 + 8 * (idsOf p).length⟩ }
        (idsOf p) hf hc
      simp only [DefaultAttrsFormat.read_uids_loop, hm, if_true, hw, List.filter_cons,
        List.getLast?_cons]
      refine ⟨this.1, ?_, this.2.2⟩
      rw [this.2.1]
      cases (rest.filter (fun p => ends_with p self.user_id_extension_)).getLast? <;> rfl
    · have := ih hrest fs uids hf hc
      simpa only [DefaultAttrsFormat.read_uids_loop, hm, if_false, List.filter_cons] using this

/-- Inserting entries whose keys are new and pairwise distinct appends them. -/
theorem foldl_insert_fresh (key : String → String) (mk : String → Attr) (l : List String)
    (attrs : Attrs) (hnd : (l.map key).Nodup)
    (hdis : ∀ p ∈ l, key p ∉ attrs.map Prod.fst) :
    l.foldl (fun acc p => Attrs.insert acc (key p) (mk p)) attrs
      = attrs ++ l.map (fun p => (key p, mk p)) := by
  induction l generalizing attrs with
  | nil => simp
  | cons p rest ih =>
    have hp : key p ∉ attrs.map Prod.fst := hdis p (List.mem_cons_self p rest)
    have hnd2 : key p ∉ rest.map key ∧ (rest.map key).Nodup := by
      rw [List.map_cons] at hnd
      exact List.nodup_cons.mp hnd
    have hins : Attrs.insert attrs (key p) (mk p) = attrs ++ [(key p, mk p)] := by
      unfold Attrs.insert
      rw [if_neg]
      simpa using hp
    rw [List.foldl_cons, hins, ih _ hnd2.2]
    · simp
    · intro q hq
      simp only [List.map_append, List.map_cons, List.map_nil, List.mem_append,
        List.mem_singleton, not_or]
      refine ⟨hdis q (List.mem_cons_of_mem p hq), ?_⟩
      intro heq
      exact hnd2.1 (heq ▸ List.mem_map_of_mem key hq)

/-- The loop of `read` over well-formed attribute files: every attribute file
is decoded in full and inserted under the field name computed from its path. -/
theorem read_loop_wf (self : DefaultAttrsFormat) (files : List (String × List Nat))
    (can_read : String → Bool) (payloadOf : String → List Nat) (uids : List Int)
    (l : List String)
    (h : ∀ p ∈ l, extension p = self.raw_attr_extension_ →
      fileGet files p = some (encode64 (payloadOf p).length ++ payloadOf p) ∧
      can_read p = true ∧ (payloadOf p).length ≤ INT64_MAX)
    (fs : FSHandler) (attrs : Attrs) (hf : fs.files = files) (hc : fs.can_read = can_read) :
    (self.read_loop uids l fs attrs).status = none ∧
    (self.read_loop uids l fs attrs).out =
      (l.filter (fun p => decide (extension p = self.raw_attr_extension_))).foldl
        (fun acc p => Attrs.insert acc (DefaultAttrsFormat.field_name_of p)
          ⟨payloadOf p, (payloadOf p).length, uids, DefaultAttrsFormat.field_name_of p⟩) attrs := by
  induction l generalizing fs attrs with
  | nil => simp [DefaultAttrsFormat.read_loop]
  | cons p rest ih =>
    have hrest : ∀ q ∈ rest, extension q = self.raw_attr_extension_ →
        fileGet files q = some (encode64 (payloadOf q).length ++ payloadOf q) ∧
        can_read q = true ∧ (payloadOf q).length ≤ INT64_MAX :=
      fun q hq => h q (List.mem_cons_of_mem p hq)
    by_cases hm : extension p = self.raw_attr_extension_
    · obtain ⟨hg, hr, hsize⟩ := h p (List.mem_cons_self p rest) hm
      have hlt : (payloadOf p).length < 2 ^ 64 := by
        unfold INT64_MAX at hsize; omega
      have hw := read_attrs_internal_wf fs p (payloadOf p) 0 INT64_MAX [] 0
        (by rw [hf]; exact hg) (by rw [hc]; exact hr) hlt (Nat.zero_le _)
      have hmin : min INT64_MAX ((payloadOf p).length - 0) = (payloadOf p).length := by
        simp; exact hsize
      rw [hmin] at hw
      simp only [List.drop_zero, List.take_length] at hw
      have := ih hrest { fs with reader_ptr_ := ⟨false,
        encode64 (payloadOf p).length ++ payloadOf p, 0 + 8 + (payloadOf p).length⟩ }
        (Attrs.insert attrs (DefaultAttrsFormat.field_name_of p)
          ⟨payloadOf p, (payloadOf p).length, uids, DefaultAttrsFormat.field_name_of p⟩) hf hc
      simpa only [DefaultAttrsFormat.read_loop, hm, if_true, hw, List.filter_cons, decide_True,
        List.foldl_cons] using this
    · have := ih hrest fs attrs hf hc
      simpa only [DefaultAttrsFormat.read_loop, hm, if_false, List.filter_cons, decide_False,
        Bool.false_eq_true] using this

/-! ## Lemmas on the file table -/

theorem fileGet_fileSet_same (files : List (String × List Nat)) (p : String) (c : List Nat) :
    fileGet (fileSet files p c) p = some c := by
  induction files with
  | nil => simp [fileSet, fileGet]
  | cons e rest ih =>
    obtain ⟨q, d⟩ := e
    by_cases hq : q = p
    · simp [fileSet, fileGet, hq]
    · simp [fileSet, fileGet, hq, ih]

theorem fileGet_fileSet_other (files : List (String × List Nat)) (p q : String) (c : List Nat)
    (hne : q ≠ p) : fileGet (fileSet files p c) q = fileGet files q := by
  induction files with
  | nil => simp [fileSet, fileGet, Ne.symm hne]
  | cons e rest ih =>
    obtain ⟨r, d⟩ := e
    by_cases hr : r = p
    · subst hr
      simp [fileSet, fileGet, Ne.symm hne]
    · by_cases hrq : r = q
      · subst hrq
        simp [fileSet, fileGet, hr]
      · simp [fileSet, fileGet, hr, hrq, ih]

/-- The path of an attribute file determines the name of the attribute. -/
theorem ra_file_path_injective (self : DefaultAttrsFormat) (dir : String) (a b : Attr)
    (h : self.ra_file_path dir a = self.ra_file_path dir b) : a.name = b.name := by
  unfold DefaultAttrsFormat.ra_file_path at h
  have h2 := congrArg String.data h
  simp only [String.data_append] at h2
  have h3 := List.append_cancel_right h2
  have h4 := List.append_cancel_left h3
  exact String.ext h4

/-- One pass of the body of the write loop on a path the writer can open. -/
theorem write_loop_cons (self : DefaultAttrsFormat) (dir : String) (k : String) (a : Attr)
    (rest : List (String × Attr)) (fs : FSHandler)
    (hw : fs.can_write (self.ra_file_path dir a) = true) :
    self.write_loop dir ((k, a) :: rest) fs =
      self.write_loop dir rest { fs with
        files := fileSet (fileSet (fileSet fs.files (self.ra_file_path dir a) [])
          (self.ra_file_path dir a) (encode64 a.nbytes))
          (self.ra_file_path dir a) (encode64 a.nbytes ++ a.data.take a.nbytes),
        writer_ptr_ := ⟨false, self.ra_file_path dir a⟩ } := by
  simp [DefaultAttrsFormat.write_loop, FSHandler.writer_open, hw, FSHandler.writer_write,
    FSHandler.writer_close, fileGet_fileSet_same]

/-- The write loop on attributes with pairwise distinct names whose files can
all be opened: it returns normally, every target file holds header plus
payload, every other path keeps its content, and only the writer changes. -/
theorem write_loop_wf (self : DefaultAttrsFormat) (dir : String) (l : List (String × Attr))
    (fs : FSHandler)
    (hw : ∀ e ∈ l, fs.can_write (self.ra_file_path dir e.2) = true)
    (hnd : (l.map (fun e => e.2.name)).Nodup) :
    (self.write_loop dir l fs).status = none ∧
    (∀ e ∈ l, fileGet (self.write_loop dir l fs).fs.files (self.ra_file_path dir e.2)
      = some (encode64 e.2.nbytes ++ e.2.data.take e.2.nbytes)) ∧
    (∀ q, (∀ e ∈ l, q ≠ self.ra_file_path dir e.2) →
      fileGet (self.write_loop dir l fs).fs.files q = fileGet fs.files q) ∧
    (self.write_loop dir l fs).fs.dir_path = fs.dir_path ∧
    (self.write_loop dir l fs).fs.is_directory = fs.is_directory ∧
    (self.write_loop dir l fs).fs.can_read = fs.can_read ∧
    (self.write_loop dir l fs).fs.can_write = fs.can_write ∧
    (self.write_loop dir l fs).fs.reader_ptr_ = fs.reader_ptr_ ∧
    (self.write_loop dir l fs).fs.writer_ptr_.is_open = (fs.writer_ptr_.is_open && l.isEmpty) := by
  induction l generalizing fs with
  | nil => simp [DefaultAttrsFormat.write_loop]
  | cons e rest ih =>
    obtain ⟨k, a⟩ := e
    have hwa := hw (k, a) (List.mem_cons_self _ _)
    have hnd2 : a.name ∉ rest.map (fun e => e.2.name) ∧ (rest.map (fun e => e.2.name)).Nodup := by
      rw [List.map_cons] at hnd
      exact List.nodup_cons.mp hnd
    rw [write_loop_cons self dir k a rest fs hwa]
    obtain ⟨h1, h2, h3, h4, h5, h6, h7, h8, h9⟩ := ih
      { fs with
        files := fileSet (fileSet (fileSet fs.files (self.ra_file_path dir a) [])
          (self.ra_file_path dir a) (encode64 a.nbytes))
          (self.ra_file_path dir a) (encode64 a.nbytes ++ a.data.take a.nbytes),
        writer_ptr_ := ⟨false, self.ra_file_path dir a⟩ }
      (fun e he => hw e (List.mem_cons_of_mem _ he)) hnd2.2
    have hfresh : ∀ e ∈ rest, self.ra_file_path dir a ≠ self.ra_file_path dir e.2 := by
      intro e he heq
      exact hnd2.1 (ra_file_path_injective self dir a e.2 heq ▸
        List.mem_map_of_mem (fun e => e.2.name) he)
    refine ⟨h1, ?_, ?_, h4, h5, h6, h7, h8, ?_⟩
    · intro e he
      rcases List.mem_cons.mp he with rfl | he
      · rw [h3 _ hfresh]
        exact fileGet_fileSet_same _ _ _
      · exact h2 e he
    · intro q hq
      have hqa : q ≠ self.ra_file_path dir a := hq (k, a) (List.mem_cons_self _ _)
      rw [h3 q (fun e he => hq e (List.mem_cons_of_mem _ he))]
      simp only [fileGet_fileSet_other _ _ _ _ hqa]
    · simpa using h9

/-- The first match of a search is the head of the filtered list. -/
theorem find?_eq_head?_filter {α : Type} (f : α → Bool) (l : List α) :
    l.find? f = (l.filter f).head? := by
  induction l with
  | nil => rfl
  | cons a rest ih =>
    by_cases ha : f a = true
    · rw [List.find?_cons_of_pos _ ha, List.filter_cons_of_pos ha]; rfl
    · rw [List.find?_cons_of_neg _ ha, List.filter_cons_of_neg ha, ih]

/-! ## When do attribute files stand for distinct fields? -/

theorem afterLast_not_mem (c : Char) (n acc : List Char) (h : c ∉ n) :
    afterLast c n acc = acc := by
  induction n generalizing acc with
  | nil => rfl
  | cons x xs ih =>
    have hx : x ≠ c := fun e => h (e ▸ List.mem_cons_self x xs)
    simp only [afterLast, hx, if_false]
    exact ih acc (fun hm => h (List.mem_cons_of_mem x hm))

theorem afterLast_append (c : Char) (xs n acc : List Char) (h : c ∉ n) :
    afterLast c (xs ++ c :: n) acc = n := by
  induction xs generalizing acc with
  | nil => simp [afterLast, afterLast_not_mem c n n h]
  | cons x xs ih =>
    by_cases hx : x = c
    · simp [afterLast, hx, ih]
    · simp [afterLast, hx, ih]

theorem fromLast_suffix (c : Char) (l r : List Char) (h : fromLast c l = some r) :
    ∃ s, l = s ++ r := by
  induction l generalizing r with
  | nil => simp [fromLast] at h
  | cons x xs ih =>
    simp only [fromLast] at h
    cases hrec : fromLast c xs with
    | some r2 =>
      rw [hrec] at h
      obtain ⟨s, hs⟩ := ih r2 hrec
      have : r2 = r := by simpa using h
      exact ⟨x :: s, by rw [hs, this]; rfl⟩
    | none =>
      rw [hrec] at h
      by_cases hx : x = c
      · simp only [hx, if_true, Option.some.injEq] at h
        exact ⟨[], by rw [← h, hx]; rfl⟩
      · simp [hx] at h

/-- The shape of a path listed in a directory. -/
theorem inDirectory_shape (dir p : String) (h : inDirectory dir p = true) :
    ∃ n, p.data = dir.data ++ '/' :: n ∧ n ≠ [] ∧ '/' ∉ n := by
  simp only [inDirectory, Bool.and_eq_true, Bool.not_eq_true', List.isPrefixOf_iff_prefix] at h
  obtain ⟨⟨⟨t, ht⟩, hne⟩, hsl⟩ := h
  have hd : p.data.drop (dir.data ++ ['/']).length = t := by
    rw [← ht]; exact List.drop_left _ _
  rw [hd] at hne hsl
  refine ⟨t, ?_, ?_, ?_⟩
  · rw [← ht]; simp
  · intro e
    rw [e] at hne
    simp at hne
  · simpa using hsl

/-- For a listed path whose extension has at least three characters, the field
name is the file name without its last three characters. -/
theorem field_name_of_listed (dir p ext : String) (hin : inDirectory dir p = true)
    (hext : extension p = ext) (h3 : 3 ≤ ext.length) (hlen : p.length < 2 ^ 64) :
    ∃ s, p.data = dir.data ++ '/' :: (s ++ ext.data) ∧
      (DefaultAttrsFormat.field_name_of p).data = s ++ ext.data.take (ext.length - 3) := by
  obtain ⟨n, hp, hne, hsl⟩ := inDirectory_shape dir p hin
  have hfn : filename p = ⟨n⟩ := by
    have ha : afterLast '/' p.data p.data = n := by
      rw [hp]; exact afterLast_append '/' dir.data n _ hsl
    unfold filename
    simp only [ha]
    cases n with
    | nil => exact absurd rfl hne
    | cons x xs => simp
  have hsuf : ∃ s, n = s ++ ext.data := by
    unfold extension at hext
    rw [hfn] at hext
    simp only at hext
    split at hext
    · rw [← hext] at h3; simp at h3
    · split at hext
      · rename_i e he
        obtain ⟨s, hs⟩ := fromLast_suffix '.' n e he
        exact ⟨s, by rw [hs, ← hext]⟩
      · rw [← hext] at h3; simp at h3
  obtain ⟨s, hs⟩ := hsuf
  refine ⟨s, by rw [hp, hs], ?_⟩
  have hnl : n.length < 2 ^ 64 := by
    have : p.length = dir.data.length + 1 + n.length := by
      show p.data.length = _
      rw [hp]; simp; omega
    omega
  have hn3 : 3 ≤ n.length := by
    rw [hs, List.length_append]
    have : ext.data.length = ext.length := rfl
    omega
  unfold DefaultAttrsFormat.field_name_of substr0
  rw [hfn]
  have hl : (String.mk n).length = n.length := rfl
  simp only [hl]
  have hmod : (n.length + 2 ^ 64 - 3) % 2 ^ 64 = n.length - 3 := by omega
  rw [hmod, hs, List.length_append]
  have hel : ext.data.length = ext.length := rfl
  rw [List.take_append_eq_append_take]
  rw [List.take_of_length_le (by omega)]
  have hk : s.length + ext.data.length - 3 - s.length = ext.length - 3 := by omega
  rw [hk]

/-- In a directory listing without repeated paths, attribute files stand for
pairwise distinct fields as soon as the attribute extension has at least three
characters. -/
theorem field_names_nodup (self : DefaultAttrsFormat) (fs : FSHandler)
    (h3 : 3 ≤ self.raw_attr_extension_.length) (hnd : fs.ListDirectory.Nodup)
    (hlen : ∀ p ∈ fs.ListDirectory, p.length < 2 ^ 64) :
    ((fs.ListDirectory.filter (fun p => decide (extension p = self.raw_attr_extension_))).map
      DefaultAttrsFormat.field_name_of).Nodup := by
  apply List.Nodup.map_on _ (hnd.filter _)
  intro p hp q hq heq
  obtain ⟨hpl, hpe⟩ := List.mem_filter.mp hp
  obtain ⟨hql, hqe⟩ := List.mem_filter.mp hq
  have hpin : inDirectory fs.dir_path p = true := (List.mem_filter.mp hpl).2
  have hqin : inDirectory fs.dir_path q = true := (List.mem_filter.mp hql).2
  obtain ⟨s, hs, hsf⟩ := field_name_of_listed fs.dir_path p self.raw_attr_extension_ hpin
    (of_decide_eq_true hpe) h3 (hlen p hpl)
  obtain ⟨t, ht, htf⟩ := field_name_of_listed fs.dir_path q self.raw_attr_extension_ hqin
    (of_decide_eq_true hqe) h3 (hlen q hql)
  rw [heq, htf] at hsf
  have hst : t = s := List.append_cancel_right hsf
  apply String.ext
  rw [hs, ht, hst]

/-! ## Reading a directory whose files can be opened -/

/-- C9 (in-range bounded read): on a file whose header holds `T` and is
followed by the `T` payload bytes, `read_attrs_internal` called with an offset
`0 ≤ offset ≤ T` and any count returns normally with exactly
`min count (T - offset)` bytes, namely the payload bytes from position `offset`
on, and reports the total length `T`, not the clamped count; with offset 0 and
count `INT64_MAX` (the call made by `read`) it returns the whole payload. -/
theorem read_attrs_internal_in_range (fs : FSHandler) (path : String) (payload : List Nat)
    (offset count : Nat) (raw_attrs : List Nat) (nbytes : Nat)
    (hfile : fileGet fs.files path = some (encode64 payload.length ++ payload))
    (hopen : fs.can_read path = true)
    (hT : payload.length < 2 ^ 64) (hoff : offset ≤ payload.length) :
    (DefaultAttrsFormat.read_attrs_internal fs path offset count raw_attrs nbytes).status = none ∧
    (DefaultAttrsFormat.read_attrs_internal fs path offset count raw_attrs nbytes).out.1.length
      = min count (payload.length - offset) ∧
    (DefaultAttrsFormat.read_attrs_internal fs path offset count raw_attrs nbytes).out.1
      = (payload.drop offset).take (min count (payload.length - offset)) ∧
    (∀ i, i < min count (payload.length - offset) →
      (DefaultAttrsFormat.read_attrs_internal fs path offset count raw_attrs nbytes).out.1[i]?
        = payload[offset + i]?) ∧
    (DefaultAttrsFormat.read_attrs_internal fs path offset count raw_attrs nbytes).out.2
      = payload.length ∧
    (payload.length ≤ INT64_MAX →
      (DefaultAttrsFormat.read_attrs_internal fs path 0 INT64_MAX raw_attrs nbytes).out
        = (payload, payload.length)) := by
  rw [read_attrs_internal_wf fs path payload offset count raw_attrs nbytes hfile hopen hT hoff]
  refine ⟨rfl, ?_, rfl, ?_, rfl, ?_⟩
  · simp [List.length_take, List.length_drop]
  · intro i hi
    simp only [List.getElem?_take, hi, if_true, List.getElem?_drop]
  · intro hmax
    rw [read_attrs_internal_wf fs path payload 0 INT64_MAX raw_attrs nbytes hfile hopen hT
      (Nat.zero_le _)]
    have hmin : min INT64_MAX (payload.length - 0) = payload.length := by
      simp; exact hmax
    rw [hmin]
    simp

/-- Witness for C9: header `T = 4`, offset 2, count 10 on `seg/age.attr`
returns the last two payload bytes and reports 4. -/
theorem read_attrs_internal_in_range_witness :
    (fileGet exampleSegment.files "seg/age.attr" = some (encode64 4 ++ [1, 2, 3, 4]) ∧
      exampleSegment.can_read "seg/age.attr" = true ∧ 4 < 2 ^ 64 ∧ 2 ≤ 4) ∧
    (DefaultAttrsFormat.read_attrs_internal exampleSegment "seg/age.attr" 2 10 [] 0).out
      = ([3, 4], 4) := by
  have h := read_attrs_internal_in_range exampleSegment "seg/age.attr" [1, 2, 3, 4] 2 10 [] 0
    (by decide) (by decide) (by decide) (by decide)
  exact ⟨by decide, Prod.ext h.2.2.1 h.2.2.2.2.1⟩

/-- C5 (readAll decoding postcondition): in an existing directory whose
attribute files are well formed (header `T`, then exactly `T` bytes) and stand
for pairwise distinct fields (so in any listing without repeated paths when the
extension has three characters or more, see `field_names_nodup`), with at most
one row-id file, itself well formed,
`read` into an empty set returns normally with one attribute per attribute
file: its payload is the `T` bytes after the header, its declared length is
`T`, and its row identifiers are those stored in the row-id file, the same list
for every attribute, and the empty list when there is no row-id file. -/
theorem read_decodes_directory (self : DefaultAttrsFormat) (fs : FSHandler)
    (payloadOf : String → List Nat) (ids : List Int)
    (hdir : fs.is_directory fs.dir_path = true)
    (hattr : ∀ p ∈ fs.ListDirectory, extension p = self.raw_attr_extension_ →
      fileGet fs.files p = some (encode64 (payloadOf p).length ++ payloadOf p) ∧
      fs.can_read p = true ∧ (payloadOf p).length ≤ INT64_MAX)
    (huid : (fs.ListDirectory.filter (fun p => ends_with p self.user_id_extension_) = [] ∧
        ids = []) ∨
      (∃ u, fs.ListDirectory.filter (fun p => ends_with p self.user_id_extension_) = [u] ∧
        fileGet fs.files u = some (encode64 (8 * ids.length) ++ encodeUids ids) ∧
        fs.can_read u = true ∧ (∀ x ∈ ids, -2 ^ 63 ≤ x ∧ x < 2 ^ 63) ∧
        8 * ids.length < 2 ^ 64))
    (hnames : ((fs.ListDirectory.filter
        (fun p => decide (extension p = self.raw_attr_extension_))).map
        DefaultAttrsFormat.field_name_of).Nodup) :
    (self.read fs []).status = none ∧
    (self.read fs []).out.length = (fs.ListDirectory.filter
        (fun p => decide (extension p = self.raw_attr_extension_))).length ∧
    (self.read fs []).out = (fs.ListDirectory.filter
        (fun p => decide (extension p = self.raw_attr_extension_))).map
      (fun p => (DefaultAttrsFormat.field_name_of p,
        (⟨payloadOf p, (payloadOf p).length, ids, DefaultAttrsFormat.field_name_of p⟩ : Attr))) := by
  have key : ∀ (fs1 : FSHandler), fs1.files = fs.files → fs1.can_read = fs.can_read →
      (self.read_loop ids fs.ListDirectory fs1 []).status = none ∧
      (self.read_loop ids fs.ListDirectory fs1 []).out = (fs.ListDirectory.filter
        (fun p => decide (extension p = self.raw_attr_extension_))).map
      (fun p => (DefaultAttrsFormat.field_name_of p,
        (⟨payloadOf p, (payloadOf p).length, ids, DefaultAttrsFormat.field_name_of p⟩ : Attr))) := by
    intro fs1 hf hc
    obtain ⟨h1, h2⟩ := read_loop_wf self fs.files fs.can_read payloadOf ids fs.ListDirectory
      hattr fs1 [] hf hc
    refine ⟨h1, ?_⟩
    rw [h2, foldl_insert_fresh DefaultAttrsFormat.field_name_of
      (fun p => ⟨payloadOf p, (payloadOf p).length, ids, DefaultAttrsFormat.field_name_of p⟩)
      _ [] hnames (by simp)]
    simp
  have main : (self.read fs []).status = none ∧
      (self.read fs []).out = (fs.ListDirectory.filter
        (fun p => decide (extension p = self.raw_attr_extension_))).map
      (fun p => (DefaultAttrsFormat.field_name_of p,
        (⟨payloadOf p, (payloadOf p).length, ids, DefaultAttrsFormat.field_name_of p⟩ : Attr))) := by
    rcases huid with ⟨hnone, hids⟩ | ⟨u, hone, hget, hread, hrange, hsize⟩
    · have hfind : fs.ListDirectory.find? (fun p => ends_with p self.user_id_extension_)
          = none := by
        rw [find?_eq_head?_filter, hnone]; rfl
      subst hids
      have := key fs rfl rfl
      simpa only [DefaultAttrsFormat.read, hdir, Bool.not_true, Bool.false_eq_true, if_false,
        hfind] using this
    · have hfind : fs.ListDirectory.find? (fun p => ends_with p self.user_id_extension_)
          = some u := by
        rw [find?_eq_head?_filter, hone]; rfl
      have hw := read_uids_internal_wf fs u ids [] hget hread hrange hsize
      have := key { fs with reader_ptr_ := ⟨true, encode64 (8 * ids.length) ++ encodeUids ids,
        8 + 8 * ids.length⟩ } rfl rfl
      simpa only [DefaultAttrsFormat.read, hdir, Bool.not_true, Bool.false_eq_true, if_false,
        hfind, hw] using this
  refine ⟨main.1, ?_, main.2⟩
  rw [main.2, List.length_map]

/-- Witness for C5: the scenario directory (`age.attr` with header 4 and
payload `[1, 2, 3, 4]`, `rows.uid` with header 8 and identifier 42) decodes to
one attribute with payload `[1, 2, 3, 4]`, length 4 and row identifiers `[42]`. -/
theorem read_decodes_directory_witness :
    exampleSegment.is_directory exampleSegment.dir_path = true ∧
    exampleSegment.ListDirectory = ["seg/age.attr", "seg/rows.uid"] ∧
    (exampleCodec.read exampleSegment []).status = none ∧
    (exampleCodec.read exampleSegment []).out.map (fun e => (e.2.data, e.2.nbytes, e.2.uids))
      = [([1, 2, 3, 4], 4, [42])] := by
  have h := read_decodes_directory exampleCodec exampleSegment
    (fun p => if p = "seg/age.attr" then [1, 2, 3, 4] else []) [42]
    (by decide) (by decide)
    (Or.inr ⟨"seg/rows.uid", by decide, by decide, by decide, by decide, by decide⟩)
    (by decide)
  refine ⟨by decide, by decide, h.1, ?_⟩
  rw [h.2.2]
  decide

/-- C7 (missing directory): when the handler's directory path is not an
existing directory, `read` and `read_uids` both throw with the code
`SERVER_INVALID_ARGUMENT` (and so with no other code), leave the filesystem
handler exactly as it was (nothing listed, no file opened) and leave the
caller's output set and list unchanged. -/
theorem read_missing_directory (self : DefaultAttrsFormat) (fs : FSHandler) (attrs_read : Attrs)
    (uids : List Int) (hdir : fs.is_directory fs.dir_path = false) :
    ((self.read fs attrs_read).status = some ErrorCode.SERVER_INVALID_ARGUMENT ∧
      (self.read fs attrs_read).status ≠ some ErrorCode.SERVER_CANNOT_CREATE_FILE ∧
      (self.read fs attrs_read).fs = fs ∧
      (self.read fs attrs_read).out = attrs_read) ∧
    ((self.read_uids fs uids).status = some ErrorCode.SERVER_INVALID_ARGUMENT ∧
      (self.read_uids fs uids).status ≠ some ErrorCode.SERVER_CANNOT_CREATE_FILE ∧
      (self.read_uids fs uids).fs = fs ∧
      (self.read_uids fs uids).out = uids) := by
  simp [DefaultAttrsFormat.read, DefaultAttrsFormat.read_uids, hdir]

/-- Witness for C7: a handler on the missing directory `gone`. -/
theorem read_missing_directory_witness :
    missingSegment.is_directory missingSegment.dir_path = false ∧
    (exampleCodec.read missingSegment []).status = some ErrorCode.SERVER_INVALID_ARGUMENT ∧
    (exampleCodec.read_uids missingSegment [7]).status
      = some ErrorCode.SERVER_INVALID_ARGUMENT ∧
    (exampleCodec.read_uids missingSegment [7]).out = [7] := by
  have h := read_missing_directory exampleCodec missingSegment [] [7] (by decide)
  exact ⟨by decide, h.1.1, h.2.1, h.2.2.2.2⟩

/-- C8 (empty-set no-op): whatever the filesystem handler holds, and even when
its writer would refuse every open, `write` called with an empty attribute set
returns without error and leaves the handler and every file exactly as they
were. -/
theorem write_empty_noop (self : DefaultAttrsFormat) (fs : FSHandler) :
    (self.write fs []).status = none ∧ (self.write fs []).fs = fs ∧
    (self.write { fs with can_write := fun _ => false } []).status = none ∧
    (self.write { fs with can_write := fun _ => false } []).fs
      = { fs with can_write := fun _ => false } := by
  simp [DefaultAttrsFormat.write]

/-- C6 (writeAll postcondition and frame): for a non-empty attribute set whose
attributes have pairwise distinct names and a declared length equal to their
payload size, in a directory where every target file can be opened, `write`
returns normally; afterwards the file `<directory>/<name><attribute extension>`
of each attribute holds exactly the eight header bytes of its declared length
followed by its payload, every other path has the content it had before (in
particular every path with the row-id suffix that is not such a target), and
nothing else of the handler changes except that the writer ends closed. -/
theorem write_postcondition_frame (self : DefaultAttrsFormat) (fs : FSHandler) (attrs : Attrs)
    (hne : attrs ≠ [])
    (hlen : ∀ e ∈ attrs, e.2.nbytes = e.2.data.length)
    (hnames : (attrs.map (fun e => e.2.name)).Nodup)
    (hopen : ∀ e ∈ attrs,
      fs.can_write (fs.dir_path ++ "/" ++ e.2.name ++ self.raw_attr_extension_) = true) :
    (self.write fs attrs).status = none ∧
    (∀ e ∈ attrs,
      fileGet (self.write fs attrs).fs.files
        (fs.dir_path ++ "/" ++ e.2.name ++ self.raw_attr_extension_)
        = some (encode64 e.2.nbytes ++ e.2.data) ∧
      (encode64 e.2.nbytes ++ e.2.data).length = 8 + e.2.nbytes) ∧
    (∀ q, (∀ e ∈ attrs, q ≠ fs.dir_path ++ "/" ++ e.2.name ++ self.raw_attr_extension_) →
      fileGet (self.write fs attrs).fs.files q = fileGet fs.files q) ∧
    (∀ q, ends_with q self.user_id_extension_ = true →
      (∀ e ∈ attrs, q ≠ fs.dir_path ++ "/" ++ e.2.name ++ self.raw_attr_extension_) →
      fileGet (self.write fs attrs).fs.files q = fileGet fs.files q) ∧
    (self.write fs attrs).fs.dir_path = fs.dir_path ∧
    (self.write fs attrs).fs.is_directory = fs.is_directory ∧
    (self.write fs attrs).fs.can_read = fs.can_read ∧
    (self.write fs attrs).fs.can_write = fs.can_write ∧
    (self.write fs attrs).fs.reader_ptr_ = fs.reader_ptr_ ∧
    (self.write fs attrs).fs.writer_ptr_.is_open = false := by
  have hw : self.write fs attrs = self.write_loop fs.dir_path attrs fs := by
    cases attrs with
    | nil => exact absurd rfl hne
    | cons e rest => rfl
  obtain ⟨h1, h2, h3, h4, h5, h6, h7, h8, h9⟩ :=
    write_loop_wf self fs.dir_path attrs fs hopen hnames
  rw [hw]
  refine ⟨h1, ?_, h3, fun q _ hq => h3 q hq, h4, h5, h6, h7, h8, ?_⟩
  · intro e he
    have htake : e.2.data.take e.2.nbytes = e.2.data := by
      rw [hlen e he]; exact List.take_length _
    have := h2 e he
    rw [htake] at this
    refine ⟨this, ?_⟩
    rw [List.length_append, encode64_length, hlen e he]
  · rw [h9]
    cases attrs with
    | nil => exact absurd rfl hne
    | cons e rest => simp

/-- Witness for C6: writing the attribute `age` into the scenario directory
replaces `seg/age.attr` and leaves `seg/rows.uid` as it was. -/
theorem write_postcondition_frame_witness :
    ([("age", ageAttr)] ≠ [] ∧ ageAttr.nbytes = ageAttr.data.length ∧
      exampleSegment.can_write ("seg" ++ "/" ++ "age" ++ ".attr") = true) ∧
    (exampleCodec.write exampleSegment [("age", ageAttr)]).status = none ∧
    fileGet (exampleCodec.write exampleSegment [("age", ageAttr)]).fs.files "seg/age.attr"
      = some (encode64 4 ++ [1, 2, 3, 4]) ∧
    fileGet (exampleCodec.write exampleSegment [("age", ageAttr)]).fs.files "seg/rows.uid"
      = fileGet exampleSegment.files "seg/rows.uid" := by
  have h := write_postcondition_frame exampleCodec exampleSegment [("age", ageAttr)]
    (by decide) (by decide) (by decide) (by decide)
  exact ⟨by decide, h.1, (h.2.1 ("age", ageAttr) (by decide)).1,
    h.2.2.2.1 "seg/rows.uid" (by decide) (by decide)⟩

/-- C4, as stated, fails: with two well-formed row-id files holding the
identifiers 1 and 2, `read_uids` called with an empty list returns `[2]`, not
the concatenation `[1, 2]`. -/
theorem read_uids_two_files_not_concatenated :
    twoUidSegment.is_directory twoUidSegment.dir_path = true ∧
    twoUidSegment.ListDirectory = ["seg/a.uid", "seg/b.uid"] ∧
    fileGet twoUidSegment.files "seg/a.uid" = some (encode64 8 ++ encodeUids [1]) ∧
    fileGet twoUidSegment.files "seg/b.uid" = some (encode64 8 ++ encodeUids [2]) ∧
    (exampleCodec.read_uids twoUidSegment []).status = none ∧
    (exampleCodec.read_uids twoUidSegment []).out = [2] ∧
    (exampleCodec.read_uids twoUidSegment []).out ≠ [1] ++ [2] := by
  decide

/-- C4, amended (readRowIds keeps the last file): in an existing directory
whose listing contains `k ≥ 1` files matching the row-id suffix, each well
formed (header `N_i`, a multiple of 8, followed by exactly `N_i` bytes),
`read_uids` called with an empty output list returns normally with the
identifier array of the last matching file in listing order, so the result has
`N_k / 8` identifiers: each file resizes the shared list to `N_i / 8` and is
read into its start. -/
theorem read_uids_last_file (self : DefaultAttrsFormat) (fs : FSHandler)
    (idsOf : String → List Int) (last : String)
    (hdir : fs.is_directory fs.dir_path = true)
    (hfiles : ∀ p ∈ fs.ListDirectory, ends_with p self.user_id_extension_ = true →
      fileGet fs.files p = some (encode64 (8 * (idsOf p).length) ++ encodeUids (idsOf p)) ∧
      fs.can_read p = true ∧ (∀ x ∈ idsOf p, -2 ^ 63 ≤ x ∧ x < 2 ^ 63) ∧
      8 * (idsOf p).length < 2 ^ 64)
    (hlast : (fs.ListDirectory.filter
      (fun p => ends_with p self.user_id_extension_)).getLast? = some last) :
    (self.read_uids fs []).status = none ∧
    (self.read_uids fs []).out = idsOf last ∧
    (self.read_uids fs []).out.length = 8 * (idsOf last).length / 8 := by
  obtain ⟨h1, h2, _⟩ := read_uids_loop_wf self fs.files fs.can_read idsOf fs.ListDirectory
    hfiles fs [] rfl rfl
  rw [hlast] at h2
  simp only [Option.map_some', Option.getD_some] at h2
  have hr : self.read_uids fs [] = self.read_uids_loop fs.ListDirectory fs [] := by
    simp [DefaultAttrsFormat.read_uids, hdir]
  rw [hr]
  refine ⟨h1, h2, ?_⟩
  rw [h2]
  omega

/-- Witness for the amended C4: the directory with the row-id files `a.uid`
(identifier 1) and `b.uid` (identifier 2) yields the list of `b.uid`. -/
theorem read_uids_last_file_witness :
    twoUidSegment.is_directory twoUidSegment.dir_path = true ∧
    (twoUidSegment.ListDirectory.filter
      (fun p => ends_with p exampleCodec.user_id_extension_)).getLast? = some "seg/b.uid" ∧
    (exampleCodec.read_uids twoUidSegment []).status = none ∧
    (exampleCodec.read_uids twoUidSegment []).out = [2] := by
  have h := read_uids_last_file exampleCodec twoUidSegment
    (fun p => if p = "seg/a.uid" then [1] else [2]) "seg/b.uid"
    (by decide) (by decide) (by decide)
  exact ⟨by decide, by decide, h.1, h.2.1⟩

/-- C2 at a failing input: on a file with header `T = 4` and four payload
bytes, `read_attrs_internal` with offset 5 and count 10 computes
`nbytes - offset` modulo `2 ^ 64`, keeps the count 10 and returns a buffer of
ten (zero) bytes together with `T = 4`, where a buffer of zero bytes is
expected. -/
theorem read_attrs_internal_offset_past_payload :
    fileGet exampleSegment.files "seg/age.attr" = some (encode64 4 ++ [1, 2, 3, 4]) ∧
    (4 + 2 ^ 64 - 5 % 2 ^ 64) % 2 ^ 64 = 2 ^ 64 - 1 ∧
    (DefaultAttrsFormat.read_attrs_internal exampleSegment "seg/age.attr" 5 10 [] 0).status
      = none ∧
    (DefaultAttrsFormat.read_attrs_internal exampleSegment "seg/age.attr" 5 10 [] 0).out
      = ([0, 0, 0, 0, 0, 0, 0, 0, 0, 0], 4) ∧
    (DefaultAttrsFormat.read_attrs_internal exampleSegment "seg/age.attr" 5 10 [] 0).out.1.length
      ≠ 0 := by
  decide

/-- C10 at a failing input: starting with reader and writer closed,
`read_uids_internal` on the well-formed row-id file `seg/rows.uid` returns
normally with the reader still open, and so does `read_uids` on that directory;
`read_attrs_internal` and `write` do close what they open. -/
theorem read_uids_internal_leaves_reader_open :
    exampleSegment.reader_ptr_.is_open = false ∧
    exampleSegment.writer_ptr_.is_open = false ∧
    (DefaultAttrsFormat.read_uids_internal exampleSegment "seg/rows.uid" []).status = none ∧
    (DefaultAttrsFormat.read_uids_internal exampleSegment "seg/rows.uid" []).fs.reader_ptr_.is_open
      = true ∧
    (exampleCodec.read_uids exampleSegment []).status = none ∧
    (exampleCodec.read_uids exampleSegment []).fs.reader_ptr_.is_open = true ∧
    (DefaultAttrsFormat.read_attrs_internal exampleSegment "seg/age.attr" 0 INT64_MAX [] 0
      ).fs.reader_ptr_.is_open = false ∧
    (exampleCodec.write exampleSegment [("age", ageAttr)]).fs.writer_ptr_.is_open = false := by
  decide

end milvus.codec
